import Mathlib

/-
Verification of the forward-pass computations of two NumPy notebooks
implementing graph neural network layers:

* `gnns/gat.ipynb`  — a Graph Attention (GAT) layer: stable softmax,
  leaky rectification, additive edge attention, per-destination
  normalization, attention-weighted neighborhood aggregation, and a
  two-head combiner (concatenation / averaging).
* `gnns/rgcn.ipynb` — plain neighborhood diffusion (`ND_GNN`),
  degree-normalized GCN averaging (`D`, `D_rec`, `ND_GCN`), batched
  per-relation projection and aggregation, and the R-GCN relation sum.

Floating-point arrays are modelled as matrices over `ℝ` (exact real
arithmetic); integer adjacency matrices keep their `ℕ` entries.  The
notebooks' NumPy expressions are transcribed operation by operation:
`np.where(A==1)` becomes the row-major `edges` list, fancy-index
assignment becomes `scatterFrom` over a position/value list, boolean
mask selection becomes `List.filter`, and `np.max` on an empty array
(a NumPy error) becomes `none`.
-/

namespace GNN

noncomputable section

open Matrix

/-- `leaky_relu` from gat.ipynb: `np.where(z > 0, z, z * 0.01)`, elementwise. -/
def leaky_relu (x : ℝ) : ℝ := if 0 < x then x else x * 0.01

/-- The vector branch of `softmax` from gat.ipynb:
`a = np.exp(z - np.max(z)) / sum(np.exp(z - np.max(z)))`.
`np.max` of an empty array raises, modelled by `none`. -/
def softmax (z : List ℝ) : Option (List ℝ) :=
  z.max?.map (fun m => z.map (fun x => Real.exp (x - m) / (z.map (fun y => Real.exp (y - m))).sum))

/-- The maximum of a list of scores (`np.max(z)`); junk value `0` on the
empty list, on which the code errors. -/
def zmax (z : List ℝ) : ℝ := z.max?.getD 0

/-- The individual softmax entry produced by the vector branch of
`softmax` for the score `x` of a list `z`: subtract the maximum,
exponentiate, divide by the sum of exponentials. -/
def softmaxAt (z : List ℝ) (x : ℝ) : ℝ :=
  Real.exp (x - zmax z) / (z.map (fun y => Real.exp (y - zmax z))).sum

/-- Per-column maximum used by the matrix branch of `softmax`
(`np.max(z, axis=0)`); the row count `p+1` keeps every column non-empty. -/
def colMax {p q : ℕ} (M : Matrix (Fin (p + 1)) (Fin q) ℝ) (j : Fin q) : ℝ :=
  zmax ((List.finRange (p + 1)).map (fun i => M i j))

/-- The matrix branch of `softmax` from gat.ipynb: subtract the
per-column maximum, exponentiate, divide by the per-column sum
(`axis=0`, `keepdims=True`). -/
def softmaxMat {p q : ℕ} (M : Matrix (Fin (p + 1)) (Fin q) ℝ) : Matrix (Fin (p + 1)) (Fin q) ℝ :=
  Matrix.of fun i j => Real.exp (M i j - colMax M j) / ∑ k, Real.exp (M k j - colMax M j)

theorem list_sum_map_div (l : List ℝ) (g : ℝ → ℝ) (S : ℝ) :
    (l.map (fun x => g x / S)).sum = (l.map g).sum / S := by
  induction l with
  | nil => simp
  | cons a t ih => simp [ih, add_div]

theorem exp_sum_pos (z : List ℝ) (hz : z ≠ []) (m : ℝ) :
    0 < (z.map (fun y => Real.exp (y - m))).sum := by
  apply List.sum_pos
  · intro x hx
    obtain ⟨y, _, rfl⟩ := List.mem_map.mp hx
    exact Real.exp_pos _
  · simpa using hz

theorem softmax_eq_map (z : List ℝ) (hz : z ≠ []) :
    softmax z = some (z.map (softmaxAt z)) := by
  cases hm : z.max? with
  | none => exact absurd (List.max?_eq_none_iff.mp hm) hz
  | some m =>
    have hzm : zmax z = m := by simp [zmax, hm]
    simp only [softmax, hm, Option.map_some']
    congr 1
    apply List.map_congr_left
    intro x _
    simp only [softmaxAt, hzm]

theorem softmaxAt_sum_one (z : List ℝ) (hz : z ≠ []) :
    ((z.map (softmaxAt z)).sum) = 1 := by
  unfold softmaxAt
  rw [list_sum_map_div]
  exact div_self (ne_of_gt (exp_sum_pos z hz _))

theorem softmax_singleton (c : ℝ) : softmax [c] = some [1] := by
  simp [softmax, List.max?]

theorem foldl_max_add (t : List ℝ) (a c : ℝ) :
    (t.map (fun x => x + c)).foldl max (a + c) = t.foldl max a + c := by
  induction t generalizing a with
  | nil => rfl
  | cons b t ih =>
    rw [List.map_cons, List.foldl_cons, List.foldl_cons, max_add_add_right]
    exact ih _

theorem max?_map_add (t : List ℝ) (c : ℝ) :
    (t.map (fun x => x + c)).max? = t.max?.map (fun m => m + c) := by
  cases t with
  | nil => rfl
  | cons a t =>
    show some ((t.map (fun x => x + c)).foldl max (a + c)) = some (t.foldl max a + c)
    rw [foldl_max_add]

/-- C8: for every non-empty vector, `softmax` returns a list of the same
length whose entries subtract the maximum, exponentiate and divide by the
sum, and which sums to exactly 1; the matrix branch does the same
column-wise, each column summing to 1; a single-element input yields
exactly `[1]` whatever the value. -/
theorem C8_stableSoftmax_shape_sum (a : ℝ) (t : List ℝ) {p q : ℕ}
    (M : Matrix (Fin (p + 1)) (Fin q) ℝ) :
    softmax (a :: t) = some ((a :: t).map (softmaxAt (a :: t)))
    ∧ ((a :: t).map (softmaxAt (a :: t))).length = (a :: t).length
    ∧ ((a :: t).map (softmaxAt (a :: t))).sum = 1
    ∧ (∀ j, ∑ i, softmaxMat M i j = 1)
    ∧ (∀ c : ℝ, softmax [c] = some [1]) := by
  refine ⟨softmax_eq_map _ (by simp), by simp, softmaxAt_sum_one _ (by simp), ?_, softmax_singleton⟩
  intro j
  have hpos : 0 < ∑ k, Real.exp (M k j - colMax M j) :=
    Finset.sum_pos (fun k _ => Real.exp_pos _) Finset.univ_nonempty
  simp only [softmaxMat, Matrix.of_apply]
  rw [← Finset.sum_div]
  exact div_self (ne_of_gt hpos)

/-- C9: `softmax` is shift-invariant: adding the same constant `c` to
every entry of a non-empty vector leaves the result unchanged (exactly,
in real arithmetic, because the per-vector maximum shifts by `c` too). -/
theorem C9_stableSoftmax_shift_invariant (a c : ℝ) (t : List ℝ) :
    softmax ((a :: t).map (fun x => x + c)) = softmax (a :: t) := by
  have hmax : ((a :: t).map (fun x => x + c)).max? = (a :: t).max?.map (fun m => m + c) :=
    max?_map_add _ c
  cases hm : (a :: t).max? with
  | none => simp at hm
  | some m =>
    rw [softmax, softmax, hmax, hm]
    simp only [Option.map_some']
    have hin : List.map (fun y => Real.exp (y - (m + c))) (List.map (fun x => x + c) (a :: t))
        = List.map (fun y => Real.exp (y - m)) (a :: t) := by
      rw [List.map_map]
      apply List.map_congr_left
      intro y _
      simp [Function.comp, add_sub_add_right_eq_sub]
    congr 1
    rw [List.map_map]
    simp only [hin]
    apply List.map_congr_left
    intro x _
    simp [Function.comp, add_sub_add_right_eq_sub]

variable {n emb : ℕ}

/-- `np.where(A==1)` from gat.ipynb: the row-major (source-major) list of
positions of the adjacency matrix holding a 1; for an edge pair `(s, d)`
the code treats `s` as the source and `d` as the destination. -/
def edges (A : Matrix (Fin n) (Fin n) ℕ) : List (Fin n × Fin n) :=
  (List.finRange n).flatMap
    (fun i => ((List.finRange n).filter (fun j => A i j = 1)).map (fun j => (i, j)))

/-- The rectified additive attention score of one edge from gat.ipynb:
`z2 = concat(z1[src], z1[dst]); e = leaky_relu(z2.dot(att.T))`. -/
def edgeScore (z1 : Matrix (Fin n) (Fin emb) ℝ) (att : Fin (emb + emb) → ℝ) (s d : Fin n) : ℝ :=
  leaky_relu (∑ k, Fin.append (z1 s) (z1 d) k * att k)

/-- NumPy fancy-index assignment `M[coords] = values` applied to a base
matrix `M`: fold over the parallel position/value list, writing each
value at its position. -/
def scatterFrom (ps : List ((Fin n × Fin n) × ℝ)) (M : Matrix (Fin n) (Fin n) ℝ) :
    Matrix (Fin n) (Fin n) ℝ :=
  ps.foldl (fun N pv => Matrix.of fun a b => if (a, b) = pv.1 then pv.2 else N a b) M

/-- Fancy-index assignment into `np.zeros(A.shape)`, as both `e_matr`
and `A_scaled` are built in gat.ipynb. -/
def scatterZero (ps : List ((Fin n × Fin n) × ℝ)) : Matrix (Fin n) (Fin n) ℝ :=
  scatterFrom ps 0

/-- `e_matr` from gat.ipynb: a zero matrix with each edge's rectified
score written at the edge position,
`e_matr[edge_coords[0], edge_coords[1]] = e.reshape(-1,)`. -/
def e_matr (A : Matrix (Fin n) (Fin n) ℕ) (z1 : Matrix (Fin n) (Fin emb) ℝ)
    (att : Fin (emb + emb) → ℝ) : Matrix (Fin n) (Fin n) ℝ :=
  scatterZero ((edges A).zip ((edges A).map (fun p => edgeScore z1 att p.1 p.2)))

/-- Column `i` of `e_matr` restricted by the boolean mask
`e_matr[:,i] != 0` — the list the code feeds to `softmax` for
destination node `i` (note: the mask keeps *nonzero* entries, not
entries at adjacency-1 positions). -/
def colScores (A : Matrix (Fin n) (Fin n) ℕ) (z1 : Matrix (Fin n) (Fin emb) ℝ)
    (att : Fin (emb + emb) → ℝ) (i : Fin n) : List ℝ :=
  ((List.finRange n).map (fun j => e_matr A z1 att j i)).filter (fun x => x ≠ 0)

/-- `alpha<i> = softmax(e_matr[:,i][e_matr[:,i] != 0])` from gat.ipynb,
for one destination column `i` (`none` models the NumPy error raised by
`np.max` of an empty selection). -/
def alphaCol (A : Matrix (Fin n) (Fin n) ℕ) (z1 : Matrix (Fin n) (Fin emb) ℝ)
    (att : Fin (emb + emb) → ℝ) (i : Fin n) : Option (List ℝ) :=
  softmax (colScores A z1 att i)

/-- `alpha = np.concatenate((alpha0, ..., alpha4))` from gat.ipynb: the
destination-major concatenation of the per-column normalized weights. -/
def alpha (A : Matrix (Fin n) (Fin n) ℕ) (z1 : Matrix (Fin n) (Fin emb) ℝ)
    (att : Fin (emb + emb) → ℝ) : List ℝ :=
  (List.finRange n).flatMap (fun i => (alphaCol A z1 att i).getD [])

/-- `A_scaled` from gat.ipynb: zero matrix with the concatenated weights
scattered back through the *source-major* edge list,
`A_scaled[edge_coords[0], edge_coords[1]] = alpha.reshape(-1,)`. -/
def A_scaled (A : Matrix (Fin n) (Fin n) ℕ) (z1 : Matrix (Fin n) (Fin emb) ℝ)
    (att : Fin (emb + emb) → ℝ) : Matrix (Fin n) (Fin n) ℝ :=
  scatterZero ((edges A).zip (alpha A z1 att))

/-- `ND_GAT = A_scaled.dot(z1)` from gat.ipynb: attention-scaled
neighborhood aggregation. -/
def ND_GAT (A : Matrix (Fin n) (Fin n) ℕ) (z1 : Matrix (Fin n) (Fin emb) ℝ)
    (att : Fin (emb + emb) → ℝ) : Matrix (Fin n) (Fin emb) ℝ :=
  A_scaled A z1 att * z1

/-- The ascending list of source nodes with an edge into destination
`i` — the incoming-neighbor set the spec normalizes over. -/
def incoming (A : Matrix (Fin n) (Fin n) ℕ) (i : Fin n) : List (Fin n) :=
  (List.finRange n).filter (fun j => A j i = 1)

/-- Destination node `i`'s incoming-edge scores, in ascending source
order — the set the spec says `stableSoftmax` is applied over. -/
def incomingScores (A : Matrix (Fin n) (Fin n) ℕ) (z1 : Matrix (Fin n) (Fin emb) ℝ)
    (att : Fin (emb + emb) → ℝ) (i : Fin n) : List ℝ :=
  (incoming A i).map (fun j => edgeScore z1 att j i)

/-- The normalized attention weight the spec assigns to matrix position
`[i][j]`: the softmax weight of edge (src `j` → dst `i`) over exactly
node `i`'s incoming-edge score set, and `0` at non-edge positions.
Transcribed from the spec's destination-major description, to be
compared with what the code's scatter produces. -/
def specWeight (A : Matrix (Fin n) (Fin n) ℕ) (z1 : Matrix (Fin n) (Fin emb) ℝ)
    (att : Fin (emb + emb) → ℝ) (i j : Fin n) : ℝ :=
  if A j i = 1 then softmaxAt (incomingScores A z1 att i) (edgeScore z1 att j i) else 0

theorem scatterFrom_append (xs ys : List ((Fin n × Fin n) × ℝ)) (M : Matrix (Fin n) (Fin n) ℝ) :
    scatterFrom (xs ++ ys) M = scatterFrom ys (scatterFrom xs M) := by
  simp [scatterFrom, List.foldl_append]

theorem zip_self_map {α β : Type} (L : List α) (g : α → β) :
    L.zip (L.map g) = L.map (fun p => (p, g p)) := by
  induction L with
  | nil => rfl
  | cons x L ih => simp [ih]

theorem scatterFrom_map_fun (L : List (Fin n × Fin n)) (g : Fin n × Fin n → ℝ)
    (M : Matrix (Fin n) (Fin n) ℝ) (a b : Fin n) :
    scatterFrom (L.map (fun p => (p, g p))) M a b
      = if (a, b) ∈ L then g (a, b) else M a b := by
  induction L generalizing M with
  | nil => simp [scatterFrom]
  | cons p L ih =>
    rw [List.map_cons]
    show scatterFrom (L.map (fun p => (p, g p)))
      (Matrix.of fun a b => if (a, b) = p then g p else M a b) a b = _
    rw [ih]
    by_cases hL : (a, b) ∈ L
    · simp [hL]
    · by_cases hp : (a, b) = p
      · simp [hL, hp]
      · simp [hL, hp]

theorem zip_flatMap_eq {α β γ : Type} (L : List γ) (f : γ → List α) (g : γ → List β)
    (h : ∀ i ∈ L, (f i).length = (g i).length) :
    (L.flatMap f).zip (L.flatMap g) = L.flatMap (fun i => (f i).zip (g i)) := by
  induction L with
  | nil => rfl
  | cons i L ih =>
    rw [List.flatMap_cons, List.flatMap_cons, List.flatMap_cons,
      List.zip_append (h i (by simp)), ih (fun j hj => h j (by simp [hj]))]

theorem scatterFrom_blocks (L : List (Fin n)) (B : Fin n → List (Fin n))
    (v : Fin n → Fin n → ℝ) (M : Matrix (Fin n) (Fin n) ℝ) (a b : Fin n) :
    scatterFrom (L.flatMap (fun i => (B i).map (fun j => ((i, j), v i j)))) M a b
      = if a ∈ L ∧ b ∈ B a then v a b else M a b := by
  induction L generalizing M with
  | nil => simp [scatterFrom]
  | cons i L ih =>
    have hblock : (B i).map (fun j => ((i, j), v i j))
        = ((B i).map (fun j => (i, j))).map (fun p => (p, v p.1 p.2)) := by
      rw [List.map_map]
      rfl
    have hmem : ((a, b) ∈ (B i).map (fun j => (i, j))) ↔ (a = i ∧ b ∈ B i) := by
      constructor
      · intro h
        obtain ⟨j, hj, hje⟩ := List.mem_map.mp h
        cases hje
        exact ⟨rfl, hj⟩
      · rintro ⟨rfl, hb⟩
        exact List.mem_map.mpr ⟨b, hb, rfl⟩
    rw [List.flatMap_cons, scatterFrom_append, ih, hblock, scatterFrom_map_fun]
    by_cases hL : a ∈ L ∧ b ∈ B a
    · simp [hL.1, hL.2, List.mem_cons]
    · rw [if_neg hL]
      by_cases hai : a = i ∧ b ∈ B i
      · obtain ⟨rfl, hb⟩ := hai
        rw [if_pos (hmem.mpr ⟨rfl, hb⟩), if_pos ⟨List.mem_cons_self _ _, hb⟩]
      · rw [if_neg (fun h => hai (hmem.mp h)), if_neg ?_]
        intro h
        rcases List.mem_cons.mp h.1 with rfl | hmemL
        · exact hai ⟨rfl, h.2⟩
        · exact hL ⟨hmemL, h.2⟩

theorem mem_edges (A : Matrix (Fin n) (Fin n) ℕ) (p : Fin n × Fin n) :
    p ∈ edges A ↔ A p.1 p.2 = 1 := by
  obtain ⟨s, d⟩ := p
  simp [edges, List.mem_flatMap, List.mem_filter, List.mem_finRange, Prod.mk.injEq]

theorem e_matr_apply (A : Matrix (Fin n) (Fin n) ℕ) (z1 : Matrix (Fin n) (Fin emb) ℝ)
    (att : Fin (emb + emb) → ℝ) (a b : Fin n) :
    e_matr A z1 att a b = if A a b = 1 then edgeScore z1 att a b else 0 := by
  unfold e_matr scatterZero
  rw [zip_self_map, scatterFrom_map_fun]
  simp only [mem_edges, Matrix.zero_apply]

theorem mem_incoming (A : Matrix (Fin n) (Fin n) ℕ) (i j : Fin n) :
    j ∈ incoming A i ↔ A j i = 1 := by
  simp [incoming, List.mem_filter, List.mem_finRange]

theorem incoming_ne_nil (A : Matrix (Fin n) (Fin n) ℕ) (i : Fin n)
    (h : ∃ j, A j i = 1) : incoming A i ≠ [] := by
  obtain ⟨j, hj⟩ := h
  exact List.ne_nil_of_mem ((mem_incoming A i j).mpr hj)

theorem colScores_eq_incomingScores (A : Matrix (Fin n) (Fin n) ℕ)
    (z1 : Matrix (Fin n) (Fin emb) ℝ) (att : Fin (emb + emb) → ℝ) (i : Fin n)
    (hnz : ∀ s d, A s d = 1 → edgeScore z1 att s d ≠ 0) :
    colScores A z1 att i = incomingScores A z1 att i := by
  unfold colScores incomingScores incoming
  rw [List.filter_map]
  have hpred : List.filter ((fun x => decide (x ≠ 0)) ∘ fun j => e_matr A z1 att j i)
      (List.finRange n) = List.filter (fun j => A j i = 1) (List.finRange n) := by
    apply List.filter_congr
    intro j _
    simp only [Function.comp_apply]
    apply decide_eq_decide.mpr
    rw [e_matr_apply]
    constructor
    · intro h
      by_contra hne
      rw [if_neg hne] at h
      exact h rfl
    · intro h
      rw [if_pos h]
      exact hnz j i h
  rw [hpred]
  apply List.map_congr_left
  intro j hj
  rw [e_matr_apply, if_pos (by simpa [List.mem_filter] using hj)]

theorem alphaCol_eq (A : Matrix (Fin n) (Fin n) ℕ) (z1 : Matrix (Fin n) (Fin emb) ℝ)
    (att : Fin (emb + emb) → ℝ) (i : Fin n)
    (hnz : ∀ s d, A s d = 1 → edgeScore z1 att s d ≠ 0)
    (hin : ∃ j, A j i = 1) :
    alphaCol A z1 att i
      = some ((incoming A i).map
          (fun j => softmaxAt (incomingScores A z1 att i) (edgeScore z1 att j i))) := by
  have hne : incomingScores A z1 att i ≠ [] := by
    unfold incomingScores
    simpa using incoming_ne_nil A i hin
  rw [alphaCol, colScores_eq_incomingScores A z1 att i hnz, softmax_eq_map _ hne]
  rw [incomingScores, List.map_map]
  rfl

theorem edges_eq_blocks (A : Matrix (Fin n) (Fin n) ℕ) (hsym : ∀ i j, A i j = A j i) :
    edges A = (List.finRange n).flatMap (fun i => (incoming A i).map (fun j => (i, j))) := by
  unfold edges incoming
  congr 1
  funext i
  congr 1
  apply List.filter_congr
  intro j _
  apply decide_eq_decide.mpr
  rw [hsym]

theorem alpha_eq_blocks (A : Matrix (Fin n) (Fin n) ℕ) (z1 : Matrix (Fin n) (Fin emb) ℝ)
    (att : Fin (emb + emb) → ℝ)
    (hnz : ∀ s d, A s d = 1 → edgeScore z1 att s d ≠ 0)
    (hin : ∀ i : Fin n, ∃ j, A j i = 1) :
    alpha A z1 att = (List.finRange n).flatMap
      (fun i => (incoming A i).map
        (fun j => softmaxAt (incomingScores A z1 att i) (edgeScore z1 att j i))) := by
  unfold alpha
  congr 1
  funext i
  rw [alphaCol_eq A z1 att i hnz (hin i)]
  rfl

/-- C10: under symmetry of the {0,1} adjacency matrix, with every node
having an incoming edge and every existing edge's rectified score
nonzero, the destination-major concatenated weights scattered through
the source-major edge list land correctly: `A_scaled[i][j]` is the
softmax weight of edge (src `j` → dst `i`) over exactly node `i`'s
incoming-edge score set, and each output row of `A_scaled.dot(z1)` is
the softmax-weighted sum of that node's incoming neighbors' projected
features. -/
theorem C10_scatter_alignment (A : Matrix (Fin n) (Fin n) ℕ)
    (z1 : Matrix (Fin n) (Fin emb) ℝ) (att : Fin (emb + emb) → ℝ)
    (hsym : ∀ i j, A i j = A j i)
    (_h01 : ∀ i j, A i j = 0 ∨ A i j = 1)
    (hin : ∀ i : Fin n, ∃ j, A j i = 1)
    (hnz : ∀ s d, A s d = 1 → edgeScore z1 att s d ≠ 0) :
    (∀ i j, A_scaled A z1 att i j = specWeight A z1 att i j)
    ∧ (∀ i c, ND_GAT A z1 att i c = ∑ j, specWeight A z1 att i j * z1 j c) := by
  have key : ∀ i j, A_scaled A z1 att i j = specWeight A z1 att i j := by
    intro a b
    unfold A_scaled scatterZero
    rw [edges_eq_blocks A hsym, alpha_eq_blocks A z1 att hnz hin,
      zip_flatMap_eq _ _ _ (fun i _ => by simp),
      ]
    have hz : ∀ i : Fin n,
        ((incoming A i).map (fun j => (i, j))).zip
          ((incoming A i).map
            (fun j => softmaxAt (incomingScores A z1 att i) (edgeScore z1 att j i)))
        = (incoming A i).map
            (fun j => ((i, j), softmaxAt (incomingScores A z1 att i) (edgeScore z1 att j i))) := by
      intro i
      rw [List.zip_map']
    simp only [hz]
    rw [scatterFrom_blocks (v := fun i j => softmaxAt (incomingScores A z1 att i)
      (edgeScore z1 att j i))]
    simp only [List.mem_finRange, true_and, mem_incoming]
    unfold specWeight
    split
    · rfl
    · exact Matrix.zero_apply a b
  refine ⟨key, fun i c => ?_⟩
  rw [ND_GAT, Matrix.mul_apply]
  exact Finset.sum_congr rfl (fun j _ => by rw [key i j])

/-- A concrete run of `C10_scatter_alignment` on the one-node graph with
a self-loop, projected feature `1` and attention vector `(1, 1)`: every
hypothesis holds and the scattered weight at position `[0][0]` is the
spec's softmax weight (namely `1`). -/
theorem C10_scatter_alignment_witness :
    (∀ i j, (fun _ _ => 1 : Matrix (Fin 1) (Fin 1) ℕ) i j
      = (fun _ _ => 1 : Matrix (Fin 1) (Fin 1) ℕ) j i)
    ∧ (∀ i j, (fun _ _ => 1 : Matrix (Fin 1) (Fin 1) ℕ) i j = 0
        ∨ (fun _ _ => 1 : Matrix (Fin 1) (Fin 1) ℕ) i j = 1)
    ∧ (∀ i : Fin 1, ∃ j, (fun _ _ => 1 : Matrix (Fin 1) (Fin 1) ℕ) j i = 1)
    ∧ (∀ s d : Fin 1, (fun _ _ => 1 : Matrix (Fin 1) (Fin 1) ℕ) s d = 1 →
        edgeScore (fun _ _ => 1 : Matrix (Fin 1) (Fin 1) ℝ) (fun _ => 1) s d ≠ 0)
    ∧ A_scaled (fun _ _ => 1 : Matrix (Fin 1) (Fin 1) ℕ)
        (fun _ _ => 1 : Matrix (Fin 1) (Fin 1) ℝ) (fun _ => 1) 0 0
        = specWeight (fun _ _ => 1 : Matrix (Fin 1) (Fin 1) ℕ)
            (fun _ _ => 1 : Matrix (Fin 1) (Fin 1) ℝ) (fun _ => 1) 0 0 := by
  have hsym : ∀ i j, (fun _ _ => 1 : Matrix (Fin 1) (Fin 1) ℕ) i j
      = (fun _ _ => 1 : Matrix (Fin 1) (Fin 1) ℕ) j i := fun _ _ => rfl
  have h01 : ∀ i j, (fun _ _ => 1 : Matrix (Fin 1) (Fin 1) ℕ) i j = 0
      ∨ (fun _ _ => 1 : Matrix (Fin 1) (Fin 1) ℕ) i j = 1 := fun _ _ => Or.inr rfl
  have hin : ∀ i : Fin 1, ∃ j, (fun _ _ => 1 : Matrix (Fin 1) (Fin 1) ℕ) j i = 1 :=
    fun i => ⟨i, rfl⟩
  have hnz : ∀ s d : Fin 1, (fun _ _ => 1 : Matrix (Fin 1) (Fin 1) ℕ) s d = 1 →
      edgeScore (fun _ _ => 1 : Matrix (Fin 1) (Fin 1) ℝ) (fun _ => 1) s d ≠ 0 := by
    intro s d _
    have hsum : (∑ k, Fin.append ((fun _ _ => 1 : Matrix (Fin 1) (Fin 1) ℝ) s)
        ((fun _ _ => 1 : Matrix (Fin 1) (Fin 1) ℝ) d) k * (fun _ => (1 : ℝ)) k) = 2 := by
      have h0 : Fin.append (fun _ => (1 : ℝ)) (fun _ => (1 : ℝ)) (0 : Fin (1 + 1)) = 1 :=
        Fin.append_left (fun _ => (1 : ℝ)) (fun _ => (1 : ℝ)) 0
      have h1 : Fin.append (fun _ => (1 : ℝ)) (fun _ => (1 : ℝ)) (1 : Fin (1 + 1)) = 1 :=
        Fin.append_right (fun _ => (1 : ℝ)) (fun _ => (1 : ℝ)) 0
      rw [Fin.sum_univ_two, h0, h1]
      norm_num
    rw [edgeScore, hsum, leaky_relu]
    norm_num
  exact ⟨hsym, h01, hin, hnz,
    (C10_scatter_alignment _ _ _ hsym h01 hin hnz).1 0 0⟩

variable {N F E R a b c : ℕ}

/-- `z1 = X.dot(W.T)` from gat.ipynb: the linear transformation
(projection); the notebook stores `W` with shape `(emb, n)`, so the
conceptual (F, E) weight matrix is its transpose. -/
def z1 (X : Matrix (Fin N) (Fin F) ℝ) (W : Matrix (Fin E) (Fin F) ℝ) :
    Matrix (Fin N) (Fin E) ℝ :=
  X * Wᵀ

/-- `L_0 = X.dot(W)` from rgcn.ipynb: single-relation projection with
`W` stored (n, emb) = (F, E). -/
def L_0 (X : Matrix (Fin N) (Fin F) ℝ) (W : Matrix (Fin F) (Fin E) ℝ) :
    Matrix (Fin N) (Fin E) ℝ :=
  X * W

/-- `ND_GNN = A_und.dot(L_0)` from rgcn.ipynb: plain (uniform-sum)
neighborhood diffusion; the integer adjacency entries are promoted to
floats by the dot product. -/
def ND_GNN (A : Matrix (Fin N) (Fin N) ℕ) (L : Matrix (Fin N) (Fin E) ℝ) :
    Matrix (Fin N) (Fin E) ℝ :=
  A.map (fun x => (x : ℝ)) * L

/-- `D = A_und.sum(axis=1)` from rgcn.ipynb: the per-node degree,
the sum of adjacency row `i`. -/
def D (A : Matrix (Fin N) (Fin N) ℕ) (i : Fin N) : ℕ := ∑ j, A i j

/-- `D_rec = np.diag(np.reciprocal(D.astype(np.float32)))` from
rgcn.ipynb. There is no zero check: NumPy's `np.reciprocal(0.0)` yields
`inf` with only a warning; in this real-number embedding `(0 : ℝ)⁻¹ = 0`. -/
def D_rec (A : Matrix (Fin N) (Fin N) ℕ) : Matrix (Fin N) (Fin N) ℝ :=
  Matrix.diagonal (fun i => ((D A i : ℝ))⁻¹)

/-- `ND_GCN = D_rec.dot(ND_GNN)` from rgcn.ipynb: degree-normalized
(isotropic average) aggregation. -/
def ND_GCN (A : Matrix (Fin N) (Fin N) ℕ) (L : Matrix (Fin N) (Fin E) ℝ) :
    Matrix (Fin N) (Fin E) ℝ :=
  D_rec A * ND_GNN A L

/-- Batched matrix multiplication (`np.matmul` over a leading batch
axis): multiply independently per batch index. -/
def batchMul (P : Fin R → Matrix (Fin a) (Fin b) ℝ) (Q : Fin R → Matrix (Fin b) (Fin c) ℝ) :
    Fin R → Matrix (Fin a) (Fin c) ℝ :=
  fun r => P r * Q r

/-- `L_0_rels = np.matmul(X, W_rels)` from rgcn.ipynb: per-relation
projection, the shared feature matrix broadcast against the (R, F, E)
weight tensor. -/
def L_0_rels (X : Matrix (Fin N) (Fin F) ℝ) (W_rels : Fin R → Matrix (Fin F) (Fin E) ℝ) :
    Fin R → Matrix (Fin N) (Fin E) ℝ :=
  batchMul (fun _ => X) W_rels

/-- `ND_GCN = np.matmul(A_rels, L_0_rels)` from rgcn.ipynb (the second,
batched use of the name): per-relation uniform aggregation. -/
def ND_GCN_rels (A_rels : Fin R → Matrix (Fin N) (Fin N) ℕ)
    (L : Fin R → Matrix (Fin N) (Fin E) ℝ) : Fin R → Matrix (Fin N) (Fin E) ℝ :=
  batchMul (fun r => (A_rels r).map (fun x => (x : ℝ))) L

/-- `RGCN = np.sum(ND_GCN, axis=0)` from rgcn.ipynb: sum the
per-relation aggregates elementwise. -/
def RGCN (A_rels : Fin R → Matrix (Fin N) (Fin N) ℕ)
    (W_rels : Fin R → Matrix (Fin F) (Fin E) ℝ) (X : Matrix (Fin N) (Fin F) ℝ) :
    Matrix (Fin N) (Fin E) ℝ :=
  ∑ r, ND_GCN_rels A_rels (L_0_rels X W_rels) r

/-- `concat = np.concatenate((layer1, layer2), axis=1)` from gat.ipynb:
horizontal concatenation of the two head outputs, head order preserved. -/
def concatHeads (h1 h2 : Matrix (Fin N) (Fin E) ℝ) : Matrix (Fin N) (Fin (E + E)) ℝ :=
  Matrix.of fun i => Fin.append (h1 i) (h2 i)

/-- `average = np.sum((layer1, layer2)) / 30` from gat.ipynb (the
comment reads `30 is the number of parameters: num_layers*emb*n`): the
grand total of every entry of both head outputs divided by `2·N·E` — a
single scalar, not a per-entry mean matrix. (The DGL cross-check does
the same: `torch.mean(torch.stack(head_outs))` with no dim.) -/
def averageHeads (h1 h2 : Matrix (Fin N) (Fin E) ℝ) : ℝ :=
  ((∑ i, ∑ j, h1 i j) + (∑ i, ∑ j, h2 i j)) / (2 * N * E)

/-- The spec's words for the `average` combination mode: elementwise
mean across the K = 2 head outputs, a matrix of the same N×E shape.
For comparison with `averageHeads`, which is what the code computes. -/
def averageHeadsSpec (h1 h2 : Matrix (Fin N) (Fin E) ℝ) : Matrix (Fin N) (Fin E) ℝ :=
  Matrix.of fun i j => (h1 i j + h2 i j) / 2

/-- C6: the projection stage computes `features · weightsᵗ` (the GAT
notebook stores its weight matrix transposed, shape (E, F)), giving an
N-row, E-column output with entries `∑ k, X i k * W j k`; the batched
R-relation projection maps the (R, F, E) weight tensor to an (R, N, E)
tensor whose slice `r` is the projection of the same shared features by
relation `r`'s weight matrix. -/
theorem C6_projection_shapes (X : Matrix (Fin N) (Fin F) ℝ) (W : Matrix (Fin E) (Fin F) ℝ)
    (W_rels : Fin R → Matrix (Fin F) (Fin E) ℝ) :
    (∀ i j, z1 X W i j = ∑ k, X i k * W j k)
    ∧ (∀ r i j, L_0_rels X W_rels r i j = ∑ k, X i k * W_rels r k j)
    ∧ (∀ r, L_0_rels X W_rels r = L_0 X (W_rels r)) := by
  refine ⟨fun i j => ?_, fun r i j => ?_, fun r => rfl⟩
  · rw [z1, Matrix.mul_apply]
    rfl
  · show (X * W_rels r) i j = _
    rw [Matrix.mul_apply]

/-- C7: R-GCN aggregation with a single relation (R = 1) coincides with
plain single-relation uniform aggregation `A · (X · W)` on the same
adjacency and weights. -/
theorem C7_single_relation_rgcn (A : Matrix (Fin N) (Fin N) ℕ)
    (W : Matrix (Fin F) (Fin E) ℝ) (X : Matrix (Fin N) (Fin F) ℝ) :
    RGCN (fun _ : Fin 1 => A) (fun _ => W) X = ND_GNN A (L_0 X W) := by
  rw [RGCN, Fin.sum_univ_one]
  rfl

/-- C3: for a {0,1} adjacency matrix, degree-normalized aggregation
divides the uniform neighbor sum by the row degree:
`output[i][j] = (∑ neighbors k of i, L[k][j]) / degree(i)`. -/
theorem C3_degree_normalized_mean (A : Matrix (Fin N) (Fin N) ℕ)
    (L : Matrix (Fin N) (Fin E) ℝ)
    (h01 : ∀ i j, A i j = 0 ∨ A i j = 1) (_hdeg : ∀ i, D A i ≠ 0) :
    ∀ i j, ND_GCN A L i j
      = (∑ k ∈ Finset.univ.filter (fun k => A i k = 1), L k j) / (D A i : ℝ) := by
  intro i j
  rw [ND_GCN, D_rec, Matrix.diagonal_mul, ND_GNN, Matrix.mul_apply, inv_mul_eq_div,
    Finset.sum_filter]
  congr 1
  apply Finset.sum_congr rfl
  intro k _
  rcases h01 i k with h | h
  · simp [Matrix.map_apply, h]
  · simp [Matrix.map_apply, h]

/-- A concrete run of `C3_degree_normalized_mean` on the 2-node graph
with adjacency [[1,1],[1,0]] (degrees 2 and 1) and projected features
[[2],[4]]: both hypotheses hold and row 0 is the mean of its two
neighbors' features. -/
theorem C3_degree_normalized_mean_witness :
    (∀ i j, (Matrix.of ![![1, 1], ![1, 0]] : Matrix (Fin 2) (Fin 2) ℕ) i j = 0
      ∨ (Matrix.of ![![1, 1], ![1, 0]] : Matrix (Fin 2) (Fin 2) ℕ) i j = 1)
    ∧ (∀ i, D (Matrix.of ![![1, 1], ![1, 0]] : Matrix (Fin 2) (Fin 2) ℕ) i ≠ 0)
    ∧ ND_GCN (Matrix.of ![![1, 1], ![1, 0]]) (Matrix.of ![![(2 : ℝ)], ![4]]) 0 0
      = (∑ k ∈ Finset.univ.filter
            (fun k => (Matrix.of ![![1, 1], ![1, 0]] : Matrix (Fin 2) (Fin 2) ℕ) 0 k = 1),
          (Matrix.of ![![(2 : ℝ)], ![4]]) k 0)
        / (D (Matrix.of ![![1, 1], ![1, 0]] : Matrix (Fin 2) (Fin 2) ℕ) 0 : ℝ) :=
  ⟨by decide, by decide,
    C3_degree_normalized_mean _ _ (by decide) (by decide) 0 0⟩

/-- C4: the notebooks contain no zero-degree check and raise no
`ZeroDegreeError`: with adjacency [[0,0],[1,1]] node 0 has degree 0,
yet `ND_GCN` still produces a full output matrix (NumPy emits only a
`RuntimeWarning` and puts `inf`-scaled garbage in row 0; in this
real-number embedding, where the reciprocal of 0 is 0, the produced
matrix is [[0],[3]], with the well-defined row 1 intact). -/
theorem C4_no_zero_degree_check :
    D (Matrix.of ![![0, 0], ![1, 1]] : Matrix (Fin 2) (Fin 2) ℕ) 0 = 0
    ∧ ND_GCN (Matrix.of ![![0, 0], ![1, 1]]) (Matrix.of ![![(2 : ℝ)], ![4]]) 0 0 = 0
    ∧ ND_GCN (Matrix.of ![![0, 0], ![1, 1]]) (Matrix.of ![![(2 : ℝ)], ![4]]) 1 0 = 3 := by
  refine ⟨by decide, ?_, ?_⟩
  · rw [ND_GCN, D_rec, Matrix.diagonal_mul, ND_GNN, Matrix.mul_apply, Fin.sum_univ_two]
    norm_num [D, Fin.sum_univ_two, Matrix.map_apply]
  · rw [ND_GCN, D_rec, Matrix.diagonal_mul, ND_GNN, Matrix.mul_apply, Fin.sum_univ_two]
    norm_num [D, Fin.sum_univ_two, Matrix.map_apply]

theorem edgeScore_emb_one {m : ℕ} (z : Matrix (Fin m) (Fin 1) ℝ) (att : Fin (1 + 1) → ℝ)
    (s d : Fin m) :
    edgeScore z att s d = leaky_relu (z s 0 * att 0 + z d 0 * att 1) := by
  have h0 : Fin.append (z s) (z d) (0 : Fin (1 + 1)) = z s 0 := Fin.append_left _ _ 0
  have h1 : Fin.append (z s) (z d) (1 : Fin (1 + 1)) = z d 0 := Fin.append_right _ _ 0
  rw [edgeScore, Fin.sum_univ_two, h0, h1]

/-- C1: the head combiner's `concatenate` puts the head outputs side by
side in head order, but `average` is the grand scalar mean of every
entry, not the spec's elementwise N×E mean matrix: with head outputs
[[0],[2]] and [[5],[7]], the code's average is the single number 7/2,
which differs from both entries 5/2 and 9/2 of the elementwise mean. -/
theorem C1_average_is_scalar_not_matrix :
    concatHeads (Matrix.of ![![(0 : ℝ)], ![2]]) (Matrix.of ![![(5 : ℝ)], ![7]]) 0 0 = 0
    ∧ concatHeads (Matrix.of ![![(0 : ℝ)], ![2]]) (Matrix.of ![![(5 : ℝ)], ![7]]) 0 1 = 5
    ∧ concatHeads (Matrix.of ![![(0 : ℝ)], ![2]]) (Matrix.of ![![(5 : ℝ)], ![7]]) 1 0 = 2
    ∧ concatHeads (Matrix.of ![![(0 : ℝ)], ![2]]) (Matrix.of ![![(5 : ℝ)], ![7]]) 1 1 = 7
    ∧ averageHeads (Matrix.of ![![(0 : ℝ)], ![2]]) (Matrix.of ![![(5 : ℝ)], ![7]]) = 7 / 2
    ∧ averageHeadsSpec (Matrix.of ![![(0 : ℝ)], ![2]]) (Matrix.of ![![(5 : ℝ)], ![7]]) 0 0 = 5 / 2
    ∧ averageHeadsSpec (Matrix.of ![![(0 : ℝ)], ![2]]) (Matrix.of ![![(5 : ℝ)], ![7]]) 1 0 = 9 / 2
    ∧ averageHeads (Matrix.of ![![(0 : ℝ)], ![2]]) (Matrix.of ![![(5 : ℝ)], ![7]])
        ≠ averageHeadsSpec (Matrix.of ![![(0 : ℝ)], ![2]]) (Matrix.of ![![(5 : ℝ)], ![7]]) 0 0 := by
  have hc0 : ∀ (u v : Fin 1 → ℝ), Fin.append u v (0 : Fin (1 + 1)) = u 0 :=
    fun u v => Fin.append_left u v 0
  have hc1 : ∀ (u v : Fin 1 → ℝ), Fin.append u v (1 : Fin (1 + 1)) = v 0 :=
    fun u v => Fin.append_right u v 0
  have hav : averageHeads (Matrix.of ![![(0 : ℝ)], ![2]]) (Matrix.of ![![(5 : ℝ)], ![7]])
      = 7 / 2 := by
    rw [averageHeads, Fin.sum_univ_two, Fin.sum_univ_two]
    norm_num [Fin.sum_univ_one]
  have hsp0 : averageHeadsSpec (Matrix.of ![![(0 : ℝ)], ![2]])
      (Matrix.of ![![(5 : ℝ)], ![7]]) 0 0 = 5 / 2 := by
    rw [averageHeadsSpec]
    norm_num
  have hsp1 : averageHeadsSpec (Matrix.of ![![(0 : ℝ)], ![2]])
      (Matrix.of ![![(5 : ℝ)], ![7]]) 1 0 = 9 / 2 := by
    rw [averageHeadsSpec]
    norm_num
  refine ⟨?_, ?_, ?_, ?_, hav, hsp0, hsp1, ?_⟩
  · rw [concatHeads, Matrix.of_apply, hc0]
    norm_num
  · rw [concatHeads, Matrix.of_apply, hc1]
    norm_num
  · rw [concatHeads, Matrix.of_apply, hc0]
    norm_num
  · rw [concatHeads, Matrix.of_apply, hc1]
    norm_num
  · rw [hav, hsp0]
    norm_num

/-- C2: the code selects the entries of the dense score column that are
*nonzero*, not the entries at adjacency-1 positions: on the fully
connected 2-node graph with projected features [[1],[-1]] and attention
vector (1,1), edge (1→0) has rectified score exactly 0 and is dropped,
so destination 0's normalized weights are `softmax [2] = [1]` (one
entry) instead of `stableSoftmax` over its actual incoming score set
[2, 0] (two entries); only 2 weights are produced for the 4 positions
of the scatter-back edge list. -/
theorem C2_normalizes_over_nonzero_not_incoming :
    alphaCol (Matrix.of ![![1, 1], ![1, 1]]) (Matrix.of ![![(1 : ℝ)], ![-1]]) ![1, 1] 0
      = some [1]
    ∧ incomingScores (Matrix.of ![![1, 1], ![1, 1]]) (Matrix.of ![![(1 : ℝ)], ![-1]]) ![1, 1] 0
      = [2, 0]
    ∧ softmax [2, 0]
      ≠ alphaCol (Matrix.of ![![1, 1], ![1, 1]]) (Matrix.of ![![(1 : ℝ)], ![-1]]) ![1, 1] 0
    ∧ (edges (Matrix.of ![![1, 1], ![1, 1]] : Matrix (Fin 2) (Fin 2) ℕ)).length = 4
    ∧ (alpha (Matrix.of ![![1, 1], ![1, 1]]) (Matrix.of ![![(1 : ℝ)], ![-1]]) ![1, 1]).length
      = 2 := by
  have hfin : List.finRange 2 = [0, 1] := by decide
  have hA : ∀ a b : Fin 2, (Matrix.of ![![1, 1], ![1, 1]] : Matrix (Fin 2) (Fin 2) ℕ) a b = 1 :=
    by decide
  have hsc : ∀ s d : Fin 2,
      edgeScore (Matrix.of ![![(1 : ℝ)], ![-1]]) ![1, 1] s d
        = leaky_relu ((Matrix.of ![![(1 : ℝ)], ![-1]]) s 0 + (Matrix.of ![![(1 : ℝ)], ![-1]]) d 0)
      := by
    intro s d
    rw [edgeScore_emb_one]
    norm_num
  have he00 : e_matr (Matrix.of ![![1, 1], ![1, 1]]) (Matrix.of ![![(1 : ℝ)], ![-1]]) ![1, 1] 0 0
      = 2 := by
    rw [e_matr_apply, if_pos (hA 0 0), hsc]
    norm_num [leaky_relu]
  have he10 : e_matr (Matrix.of ![![1, 1], ![1, 1]]) (Matrix.of ![![(1 : ℝ)], ![-1]]) ![1, 1] 1 0
      = 0 := by
    rw [e_matr_apply, if_pos (hA 1 0), hsc]
    norm_num [leaky_relu]
  have he01 : e_matr (Matrix.of ![![1, 1], ![1, 1]]) (Matrix.of ![![(1 : ℝ)], ![-1]]) ![1, 1] 0 1
      = 0 := by
    rw [e_matr_apply, if_pos (hA 0 1), hsc]
    norm_num [leaky_relu]
  have he11 : e_matr (Matrix.of ![![1, 1], ![1, 1]]) (Matrix.of ![![(1 : ℝ)], ![-1]]) ![1, 1] 1 1
      = -(1 / 50) := by
    rw [e_matr_apply, if_pos (hA 1 1), hsc]
    norm_num [leaky_relu]
  have hcol0 : colScores (Matrix.of ![![1, 1], ![1, 1]]) (Matrix.of ![![(1 : ℝ)], ![-1]]) ![1, 1] 0
      = [2] := by
    rw [colScores, hfin]
    simp only [List.map_cons, List.map_nil, he00, he10]
    rw [List.filter_cons_of_pos (by simp), List.filter_cons_of_neg (by simp), List.filter_nil]
  have hcol1 : colScores (Matrix.of ![![1, 1], ![1, 1]]) (Matrix.of ![![(1 : ℝ)], ![-1]]) ![1, 1] 1
      = [-(1 / 50)] := by
    rw [colScores, hfin]
    simp only [List.map_cons, List.map_nil, he01, he11]
    rw [List.filter_cons_of_neg (by simp), List.filter_cons_of_pos (by norm_num),
      List.filter_nil]
  have ha0 : alphaCol (Matrix.of ![![1, 1], ![1, 1]]) (Matrix.of ![![(1 : ℝ)], ![-1]]) ![1, 1] 0
      = some [1] := by
    rw [alphaCol, hcol0, softmax_singleton]
  have ha1 : alphaCol (Matrix.of ![![1, 1], ![1, 1]]) (Matrix.of ![![(1 : ℝ)], ![-1]]) ![1, 1] 1
      = some [1] := by
    rw [alphaCol, hcol1, softmax_singleton]
  have hincoming : incoming (Matrix.of ![![1, 1], ![1, 1]] : Matrix (Fin 2) (Fin 2) ℕ) 0
      = [0, 1] := by decide
  have hinsc : incomingScores (Matrix.of ![![1, 1], ![1, 1]]) (Matrix.of ![![(1 : ℝ)], ![-1]])
      ![1, 1] 0 = [2, 0] := by
    rw [incomingScores, hincoming]
    simp only [List.map_cons, List.map_nil]
    have g0 : edgeScore (Matrix.of ![![(1 : ℝ)], ![-1]]) ![1, 1] 0 0 = 2 := by
      rw [hsc]
      norm_num [leaky_relu]
    have g1 : edgeScore (Matrix.of ![![(1 : ℝ)], ![-1]]) ![1, 1] 1 0 = 0 := by
      rw [hsc]
      norm_num [leaky_relu]
    rw [g0, g1]
  refine ⟨ha0, hinsc, ?_, by decide, ?_⟩
  · intro h
    have hlen := congrArg (fun o => (Option.map List.length o)) (h.symm.trans
      (softmax_eq_map ([2, 0]) (by simp)))
    rw [ha0] at hlen
    simp at hlen
  · rw [alpha, hfin]
    simp [ha0, ha1]

/-- C5: a destination node with zero incoming edges makes the code fail,
not return a zero row: with adjacency [[1,0],[1,0]] node 1 has an empty
incoming set, its masked score column is empty, and the per-column
softmax is `none` (NumPy's `np.max` raises on the empty selection)
instead of an empty weight set with a zero output row. -/
theorem C5_isolated_node_errors :
    incoming (Matrix.of ![![1, 0], ![1, 0]] : Matrix (Fin 2) (Fin 2) ℕ) 1 = []
    ∧ alphaCol (Matrix.of ![![1, 0], ![1, 0]]) (Matrix.of ![![(1 : ℝ)], ![1]]) ![1, 1] 1
      = none := by
  have hfin : List.finRange 2 = [0, 1] := by decide
  have he : ∀ j : Fin 2,
      e_matr (Matrix.of ![![1, 0], ![1, 0]]) (Matrix.of ![![(1 : ℝ)], ![1]]) ![1, 1] j 1 = 0 := by
    intro j
    rw [e_matr_apply, if_neg]
    fin_cases j <;> decide
  have hcol : colScores (Matrix.of ![![1, 0], ![1, 0]]) (Matrix.of ![![(1 : ℝ)], ![1]]) ![1, 1] 1
      = [] := by
    rw [colScores, hfin]
    simp only [List.map_cons, List.map_nil, he 0, he 1]
    rw [List.filter_cons_of_neg (by simp), List.filter_cons_of_neg (by simp), List.filter_nil]
  refine ⟨by decide, ?_⟩
  rw [alphaCol, hcol]
  rfl

end

end GNN
